import Mathlib

/-!
Formal model of the ts-etl record-normalization engine.

JavaScript strings are modelled as `List Char`, JavaScript numbers as exact
decimal values `mant * 10 ^ exp` together with explicit signed infinities
(the `Infinity` literal of `parseFloat` and the `ToString` fallback of
`toFixed` for magnitudes of at least 1e21 are modelled; IEEE-754 double
rounding and the shortest-round-trip digit choice of `Number::toString` are
outside the model; `NaN` results of `parseFloat`/`parseInt` are modelled as
`none`).
Each definition mirrors one function of the repository:
  * `normalizeFieldValue`, `normalizeRow`   — src/utils/normalization.ts
  * `processHeaderLine`, `processDataLine`,
    `prnTransformStep`, `prnFlush`          — src/parsers/prnParser.ts (PrnParser)
  * `createRenderer`, `jsonRender`          — src/renderers
-/

/-- Model of a JavaScript string: a list of characters. -/
abbrev Str := List Char

/-- Characters treated as whitespace by JS `trim`, `trimEnd` and the regex
class `\s` (ASCII whitespace plus no-break space; the exotic Unicode spaces
are outside the model). -/
def jsIsSpace (c : Char) : Bool :=
  c.toNat = 32 || c.toNat = 9 || c.toNat = 10 || c.toNat = 13
    || c.toNat = 11 || c.toNat = 12 || c.toNat = 160

/-- JS `String.prototype.trimEnd`. -/
def jsTrimEnd (s : Str) : Str :=
  (s.reverse.dropWhile jsIsSpace).reverse

/-- JS `String.prototype.trim`. -/
def jsTrim (s : Str) : Str :=
  jsTrimEnd (s.dropWhile jsIsSpace)

/-- JS `String.prototype.toUpperCase` on one code point (ASCII range; the
postcode values in scope are ASCII). -/
def jsToUpperChar (c : Char) : Char :=
  if 97 ≤ c.toNat ∧ c.toNat ≤ 122 then Char.ofNat (c.toNat - 32) else c

/-- JS `String.prototype.toLowerCase` on one code point (ASCII range). -/
def jsToLowerChar (c : Char) : Char :=
  if 65 ≤ c.toNat ∧ c.toNat ≤ 90 then Char.ofNat (c.toNat + 32) else c

/-- Decimal value of a digit string (used by the numeric parsers). -/
def digitsToNat (ds : Str) : Nat :=
  ds.foldl (fun a c => 10 * a + (c.toNat - 48)) 0

/-- JS `String.prototype.replace(',', '.')`: string-pattern `replace`
substitutes only the first occurrence. -/
def jsReplaceFirst (s : Str) (a b : Char) : Str :=
  match s with
  | [] => []
  | c :: cs => if c = a then b :: cs else c :: jsReplaceFirst cs a b

/-- Exponent suffix of a JS decimal literal: `e`/`E`, optional sign, digits.
Returns 0 when no well-formed exponent follows (parseFloat keeps the longest
valid prefix). -/
def jsParseExponent (s : Str) : Int :=
  match s with
  | [] => 0
  | c :: rest =>
    if c = 'e' || c = 'E' then
      let sg : Int := match rest with
        | '-' :: _ => -1
        | _ => 1
      let r : Str := match rest with
        | '+' :: t => t
        | '-' :: t => t
        | t => t
      let ds := r.takeWhile Char.isDigit
      if ds.isEmpty then 0 else sg * (digitsToNat ds : Int)
    else 0

/-- Exact value of a parsed JS decimal literal: `mant * 10 ^ exp`. The
decimal-literal grammar only produces such numbers, so this represents the
parse result exactly (kernel-computable, unlike normalized rationals). -/
structure DecNum where
  mant : Int
  exp : Int
deriving DecidableEq, Repr

/-- The rational number a `DecNum` denotes. -/
def DecNum.toRat (x : DecNum) : ℚ := (x.mant : ℚ) * (10 : ℚ) ^ x.exp

/-- Result of a successful JS `parseFloat`: a finite exact decimal, or one of
the signed infinities produced by the `Infinity` literal. -/
inductive JsNum where
  | finite : DecNum → JsNum
  | inf : Bool → JsNum
deriving DecidableEq, Repr

/-- JS `Number.parseFloat`: skip leading whitespace, parse the longest
StrDecimalLiteral prefix — an optional sign followed by either the literal
word `Infinity` or a decimal literal; `none` models `NaN`. For a finite
result the mantissa is the integer and fractional digits read as one
integer, the exponent is the `e`-suffix value minus the number of fractional
digits. -/
def jsParseFloat (s : Str) : Option JsNum :=
  let t := s.dropWhile jsIsSpace
  let neg : Bool := match t with
    | '-' :: _ => true
    | _ => false
  let sign : Int := if neg then -1 else 1
  let t1 : Str := match t with
    | '+' :: r => r
    | '-' :: r => r
    | r => r
  if "Infinity".data.isPrefixOf t1 then some (JsNum.inf neg)
  else
    let intPart := t1.takeWhile Char.isDigit
    let r1 := t1.dropWhile Char.isDigit
    let fracPart : Str := match r1 with
      | '.' :: r => r.takeWhile Char.isDigit
      | _ => []
    let r2 : Str := match r1 with
      | '.' :: r => r.dropWhile Char.isDigit
      | r => r
    if intPart.isEmpty && fracPart.isEmpty then none
    else
      some (JsNum.finite ⟨sign * (digitsToNat (intPart ++ fracPart) : Int),
            jsParseExponent r2 - fracPart.length⟩)

/-- JS `Number.parseInt(s, 10)`: skip leading whitespace, optional sign,
longest digit prefix; `none` models `NaN`. -/
def jsParseInt (s : Str) : Option Int :=
  let t := s.dropWhile jsIsSpace
  let sign : Int := match t with
    | '-' :: _ => -1
    | _ => 1
  let t1 : Str := match t with
    | '+' :: r => r
    | '-' :: r => r
    | r => r
  let ds := t1.takeWhile Char.isDigit
  if ds.isEmpty then none else some (sign * (digitsToNat ds : Int))

/-- Decimal representation of a natural number, most significant digit
first. -/
def natToDec (n : Nat) : Str := Nat.toDigits 10 n

/-- The two-digit zero-padded decimal form of `k` (meaningful for `k < 100`);
models the fractional digits produced by `toFixed(2)`. -/
def twoDigits (k : Nat) : Str :=
  [Nat.digitChar (k / 10), Nat.digitChar (k % 10)]

/-- Magnitude of a `DecNum` rounded to a whole number of hundredths, to the
nearest with ties away from zero (the ECMA `toFixed` rounding): the natural
number `n` minimizing the distance of `n / 100` to `|x|`, ties upward. -/
def roundHundredths (x : DecNum) : Nat :=
  if 0 ≤ x.exp + 2 then x.mant.natAbs * 10 ^ (x.exp + 2).toNat
  else (2 * x.mant.natAbs + 10 ^ (-(x.exp + 2)).toNat) / (2 * 10 ^ (-(x.exp + 2)).toNat)

/-- Whether the magnitude of a `DecNum` reaches the `toFixed` fallback
threshold of 1e21 (the ECMA step `if x >= 10^21, return ToString(x)` after
the sign is peeled). -/
def decNumAbsGe1e21 (x : DecNum) : Bool :=
  if 0 ≤ x.exp then 10 ^ 21 ≤ x.mant.natAbs * 10 ^ x.exp.toNat
  else 10 ^ (21 + (-x.exp).toNat) ≤ x.mant.natAbs

/-- Split a natural number as `s * 10 ^ z` with `s` not divisible by ten
(fuel-driven; call with fuel at least the number itself). -/
def stripTrailingZeros (fuel n : Nat) : Nat × Nat :=
  match fuel with
  | 0 => (n, 0)
  | fuel + 1 =>
    if n % 10 = 0 ∧ n ≠ 0 then
      ((stripTrailingZeros fuel (n / 10)).1, (stripTrailingZeros fuel (n / 10)).2 + 1)
    else (n, 0)

/-- ECMA `Number::toString` of a finite positive magnitude of at least 1e21,
which always takes the exponential branch (`n > 21`): the minimal digit
string `s` with `s * 10 ^ (n - k) = x`, printed as `d.rest e+ (n-1)`. The
shortest-round-trip digit choice on doubles is outside the model; on exact
decimals the minimal digits are exact. -/
def jsNumToStringMag (x : DecNum) : Str :=
  let a := x.mant.natAbs
  let s := (stripTrailingZeros a a).1
  let z := (stripTrailingZeros a a).2
  let ds := natToDec s
  let n : Int := (ds.length : Int) + (z : Int) + x.exp
  let expDigits := natToDec (n - 1).toNat
  (match ds with
   | [] => []
   | [d] => [d]
   | d :: rest => d :: '.' :: rest)
    ++ 'e' :: '+' :: expDigits

/-- JS `Number.prototype.toFixed(2)` on a finite exact decimal, per the ECMA
algorithm: a sign for negative values, then — when the magnitude reaches
1e21 — the plain `ToString` of the magnitude, otherwise the whole hundredths
split as integer part, `'.'`, and exactly two fractional digits. -/
def jsToFixed2 (x : DecNum) : Str :=
  let m := roundHundredths x
  (if x.mant < 0 then ['-'] else []) ++
    (if decNumAbsGe1e21 x then jsNumToStringMag x
     else natToDec (m / 100) ++ '.' :: twoDigits (m % 100))

/-- The string `(n / 100).toFixed(2)` for an integer `n`: exactly what the
PRN record extractor computes from a minor-unit (cents) integer. -/
def centsToFixed2 (n : Int) : Str :=
  (if n < 0 then ['-'] else []) ++ natToDec (n.natAbs / 100) ++ '.' :: twoDigits (n.natAbs % 100)

/-- JS `String.prototype.padStart(2, '0')`. -/
def pad2Str (s : Str) : Str :=
  if 2 ≤ s.length then s else List.replicate (2 - s.length) '0' ++ s

/-- Canonical header `Name` (H_NAME in src/utils/normalization.ts). -/
def hName : Str := "Name".data

/-- Canonical header `Address`. -/
def hAddress : Str := "Address".data

/-- Canonical header `Postcode`. -/
def hPostcode : Str := "Postcode".data

/-- Canonical header `Phone`. -/
def hPhone : Str := "Phone".data

/-- Canonical header `Credit Limit`. -/
def hCreditLimit : Str := "Credit Limit".data

/-- Canonical header `Birthday`. -/
def hBirthday : Str := "Birthday".data

/-- EXPECTED_HEADERS from src/utils/normalization.ts, in canonical order. -/
def EXPECTED_HEADERS : List Str :=
  [hName, hAddress, hPostcode, hPhone, hCreditLimit, hBirthday]

/-- Case-insensitive string comparison, as `a.toLowerCase() === b.toLowerCase()`. -/
def eqIgnoreCase (a b : Str) : Bool :=
  a.map jsToLowerChar == b.map jsToLowerChar

/-- Match of `/^(\d{1,2})\/(\d{1,2})\/(\d{4})$/` against `s`, returning the
three captured groups. Since `/` is not a digit, the groups coincide with the
maximal digit runs delimited by the two slashes. -/
def matchSlashDate (s : Str) : Option (Str × Str × Str) :=
  let g1 := s.takeWhile Char.isDigit
  match s.dropWhile Char.isDigit with
  | '/' :: r2 =>
    let g2 := r2.takeWhile Char.isDigit
    match r2.dropWhile Char.isDigit with
    | '/' :: g3 =>
      if 1 ≤ g1.length && g1.length ≤ 2 && 1 ≤ g2.length && g2.length ≤ 2
          && g3.length == 4 && g3.all Char.isDigit
      then some (g1, g2, g3) else none
    | _ => none
  | _ => none

/-- Match of `/^(\d{4})(\d{2})(\d{2})$/`: eight contiguous digits split 4-2-2. -/
def matchEightDigitDate (s : Str) : Option (Str × Str × Str) :=
  if s.length == 8 && s.all Char.isDigit then
    some (s.take 4, (s.drop 4).take 2, s.drop 6)
  else none

/-- Match of `/^(\d{4})-(\d{1,2})-(\d{1,2})$/` against `s`, returning the
three captured groups. -/
def matchDashDate (s : Str) : Option (Str × Str × Str) :=
  let g1 := s.takeWhile Char.isDigit
  match s.dropWhile Char.isDigit with
  | '-' :: r2 =>
    let g2 := r2.takeWhile Char.isDigit
    match r2.dropWhile Char.isDigit with
    | '-' :: g3 =>
      if g1.length == 4 && 1 ≤ g2.length && g2.length ≤ 2
          && 1 ≤ g3.length && g3.length ≤ 2 && g3.all Char.isDigit
      then some (g1, g2, g3) else none
    | _ => none
  | _ => none

/-- The `H_POSTCODE` branch of `normalizeFieldValue`:
`processedValue.replace(/\s+/g, '').toUpperCase()`. -/
def normalizePostcode (pv : Str) : Str :=
  (pv.filter (fun c => !(jsIsSpace c))).map jsToUpperChar

/-- The `H_PHONE` branch of `normalizeFieldValue`: keep a leading `+`,
strip every non-digit from the rest. -/
def normalizePhone (pv : Str) : Str :=
  match pv with
  | '+' :: rest => '+' :: rest.filter Char.isDigit
  | _ => pv.filter Char.isDigit

/-- The `H_CREDIT_LIMIT` branch of `normalizeFieldValue`: replace the first
comma by a dot, `parseFloat`, and either `'0.00'` on `NaN` or `toFixed(2)`
(which renders a parsed infinity as `Infinity` with its sign). -/
def normalizeCreditLimit (pv : Str) : Str :=
  match jsParseFloat (jsReplaceFirst pv ',' '.') with
  | none => "0.00".data
  | some (JsNum.inf neg) => (if neg then ['-'] else []) ++ "Infinity".data
  | some (JsNum.finite x) => jsToFixed2 x

/-- The `H_BIRTHDAY` branch of `normalizeFieldValue`: try the slash shape,
then eight digits, then the dash shape; fall back to the trimmed value. -/
def normalizeBirthday (pv : Str) : Str :=
  match matchSlashDate pv with
  | some (d, m, y) => y ++ '-' :: pad2Str m ++ '-' :: pad2Str d
  | none =>
    match matchEightDigitDate pv with
    | some (y, m, d) => y ++ '-' :: m ++ '-' :: d
    | none =>
      match matchDashDate pv with
      | some (y, m, d) => y ++ '-' :: pad2Str m ++ '-' :: pad2Str d
      | none => pv

/-- Default value substituted for an absent field (the `null`/`undefined`
switch at the top of `normalizeFieldValue`). -/
def defaultFieldValue (header : Str) : Str :=
  if header = hCreditLimit then "0.00".data else []

/-- normalizeFieldValue from src/utils/normalization.ts. An absent value
(`null`/`undefined`, modelled as `none`) yields the per-field default;
otherwise the canonical rule selected by case-insensitive header match is
applied to the trimmed value, defaulting to the trimmed value itself. -/
def normalizeFieldValue (header : Str) (value : Option Str) : Str :=
  match value with
  | none => defaultFieldValue header
  | some v =>
    let ruleHeaderKey := (EXPECTED_HEADERS.find? (fun e => eqIgnoreCase e header)).getD []
    let processedValue := jsTrim v
    if ruleHeaderKey = hPostcode then normalizePostcode processedValue
    else if ruleHeaderKey = hPhone then normalizePhone processedValue
    else if ruleHeaderKey = hCreditLimit then normalizeCreditLimit processedValue
    else if ruleHeaderKey = hBirthday then normalizeBirthday processedValue
    else processedValue

/-- normalizeRow from src/utils/normalization.ts: one entry per header of
`headersInOrder`, each normalized from the raw row's value for that header
(`none` when the raw row lacks the key). -/
def normalizeRow (rawRow : Str → Option Str) (headersInOrder : List Str) : List (Str × Str) :=
  headersInOrder.map (fun h => (h, normalizeFieldValue h (rawRow h)))

/-- Column specification inferred from the PRN header line (ColumnSpec in
src/parsers/prnParser.ts); `endIdx` models the end-exclusive `end` field. -/
structure ColumnSpec where
  name : Str
  start : Nat
  endIdx : Nat
deriving DecidableEq, Repr

/-- JS `hay.indexOf(needle, from)` for a nonempty needle: the least index
`i ≥ from` at which `needle` occurs in `hay`; `none` models `-1`. -/
def jsIndexOfFrom (hay needle : Str) (from_ : Nat) : Option Nat :=
  (List.range (hay.length + 1)).find? (fun i => from_ ≤ i && needle.isPrefixOf (hay.drop i))

/-- The header-position search loop of `PrnParser.processHeaderLine`: for each
expected header in canonical order, `indexOf` from `currentSearchOffset`; on a
hit, record `(name, start)` and advance the offset just past the found start. -/
def findHeaderPositions (trimmedLine : Str) : List (Str × Nat) :=
  (EXPECTED_HEADERS.foldl
    (fun (acc : List (Str × Nat) × Nat) headerName =>
      match jsIndexOfFrom trimmedLine headerName acc.2 with
      | some startIndex => (acc.1 ++ [(headerName, startIndex)], startIndex + 1)
      | none => acc)
    ([], 0)).1

/-- The columnSpecs construction loop: each spec ends where the next found
header starts; the last spec ends at the trimmed header line's length. -/
def buildColumnSpecs (lineLen : Nat) : List (Str × Nat) → List ColumnSpec
  | [] => []
  | [p] => [⟨p.1, p.2, lineLen⟩]
  | p :: q :: rest => ⟨p.1, p.2, q.2⟩ :: buildColumnSpecs lineLen (q :: rest)

/-- PrnParser.processHeaderLine: trim the end of the line (never the start),
find the expected headers, sort the found positions by start offset, build the
column specs; with zero specs on a non-blank line, emit a fatal error;
otherwise succeed, also reporting the expected headers left unmapped (the
`console.warn` payload). -/
def processHeaderLine (line : Str) : Except String (List ColumnSpec × List Str) :=
  let trimmedLine := jsTrimEnd line
  let found := List.insertionSort (fun p q : Str × Nat => p.2 ≤ q.2)
    (findHeaderPositions trimmedLine)
  let columnSpecs := buildColumnSpecs trimmedLine.length found
  if columnSpecs.length = 0 ∧ 0 < trimmedLine.length then
    .error "PRN Error: Could not derive any column specifications from PRN header line. Ensure headers match EXPECTED_HEADERS."
  else
    let missing :=
      if columnSpecs.length < EXPECTED_HEADERS.length ∧ 0 < trimmedLine.length then
        EXPECTED_HEADERS.filter (fun eh => !(columnSpecs.any (fun cs => cs.name == eh)))
      else []
    .ok (columnSpecs, missing)

/-- JS `s.substring(a, b)`: clamp both arguments to the string length, swap
them if needed, and take the in-between slice. -/
def jsSubstring (s : Str) (a b : Nat) : Str :=
  let a' := min a s.length
  let b' := min b s.length
  (s.take (max a' b')).drop (min a' b')

/-- The guarded slice of `PrnParser.processDataLine`:
`spec.start < line.length ? line.substring(spec.start, Math.min(spec.end, line.length)) : ''`. -/
def columnSlice (line : Str) (spec : ColumnSpec) : Str :=
  if spec.start < line.length then jsSubstring line spec.start (min spec.endIdx line.length)
  else []

/-- Per-column extraction of `PrnParser.processDataLine`: slice, trim, and for
the Credit Limit column divide the `parseInt` value by 100 (minor units) or
fall back to the empty string so normalization substitutes the default. -/
def extractFieldValue (line : Str) (spec : ColumnSpec) : Str :=
  let extractedValue := jsTrim (columnSlice line spec)
  if spec.name = hCreditLimit then
    match jsParseInt extractedValue with
    | some creditInt => centsToFixed2 creditInt
    | none => []
  else extractedValue

/-- The raw record assembled by `PrnParser.processDataLine` before
normalization: one `(name, value)` entry per column spec. -/
def prnRawRecord (specs : List ColumnSpec) (line : Str) : List (Str × Str) :=
  specs.map (fun spec => (spec.name, extractFieldValue line spec))

/-- PrnParser.processDataLine: skip blank lines (header already processed),
otherwise normalize the raw record over all EXPECTED_HEADERS and emit it. -/
def processDataLine (specs : List ColumnSpec) (line : Str) : Option (List (Str × Str)) :=
  if jsTrim line = [] then none
  else some (normalizeRow (fun h => (prnRawRecord specs line).lookup h) EXPECTED_HEADERS)

/-- Split a buffer at every linefeed: the resulting segments, in order. This
is the loop of `PrnParser._transform`, which repeatedly cuts the buffer at
the first `\n`; all segments but the last are emitted as lines and the last
(newline-free) segment is retained as the new buffer. -/
def splitNl : Str → List Str
  | [] => [[]]
  | c :: cs => if c = '\n' then [] :: splitNl cs else (splitNl cs).modifyHead (c :: ·)

/-- One `_transform` call: append the chunk to the buffer, emit every
complete line, keep the trailing segment as the buffer. -/
def prnTransformStep (buffer chunk : Str) : List Str × Str :=
  ((splitNl (buffer ++ chunk)).dropLast, (splitNl (buffer ++ chunk)).getLastD [])

/-- PrnParser._flush: the remaining buffer is handled as one final line if
non-empty. -/
def prnFlush (buffer : Str) : List Str :=
  if buffer = [] then [] else [buffer]

/-- The sequence of lines the parser hands to `handleLine` over a whole
stream: fold `_transform` over the chunks from an empty buffer, then flush. -/
def prnRunChunks (buffer : Str) : List Str → List Str
  | [] => prnFlush buffer
  | c :: cs =>
    (prnTransformStep buffer c).1 ++ prnRunChunks (prnTransformStep buffer c).2 cs

/-- All lines emitted for a chunked input stream. -/
def emittedLines (chunks : List Str) : List Str :=
  prnRunChunks [] chunks

/-- Reference splitter: the lines of a whole string, i.e. the linefeed
segments with a trailing empty segment (a terminating linefeed) dropped. -/
def linesOfString (s : Str) : List Str :=
  if (splitNl s).getLastD [] = [] then (splitNl s).dropLast else splitNl s

/-- Inverse of `splitNl`: re-join segments with a linefeed between
consecutive segments. -/
def unsplitNl : List Str → Str
  | [] => []
  | [l] => l
  | l :: ls => l ++ '\n' :: unsplitNl ls

/-- ALLOWED_OUTPUT_TYPES from src/types.ts. -/
def ALLOWED_OUTPUT_TYPES : List Str := ["json".data, "html".data]

/-- Abstract renderer identities for the registry entries. -/
inductive RendererTag
  | html
  | json
deriving DecidableEq, Repr

/-- The renderer registry as populated at module load of
src/renderers/index.ts: the single call `registerRenderer('html', HtmlRenderer)`. -/
def rendererRegistry : List (Str × RendererTag) := [("html".data, RendererTag.html)]

/-- createRenderer from src/renderers/index.ts: look the output type up in
the registry; an unregistered type throws `Unsupported output type`. -/
def createRenderer (outputType : Str) : Except String RendererTag :=
  match rendererRegistry.lookup outputType with
  | some tag => .ok tag
  | none => .error "Unsupported output type. No renderer registered."

/-- The full output of `JsonRenderer` for a finished stream of serialized
rows: `[]` when no row was processed, otherwise the bracketed joined rows
(_transform pushes a prefix per row, _flush closes the array). -/
def jsonRender (stringifyRow : List (Str × Str) → Str) (rows : List (List (Str × Str))) : Str :=
  match rows with
  | [] => "[]".data
  | r :: rs =>
    "[\n  ".data ++ stringifyRow r
      ++ (rs.map (fun row => ",\n  ".data ++ stringifyRow row)).flatten
      ++ "\n]\n".data

/-- Value of `Char.ofNat` below the surrogate range. -/
theorem char_toNat_ofNat (n : Nat) (h : n < 55296) : (Char.ofNat n).toNat = n := by
  unfold Char.ofNat
  rw [dif_pos (Or.inl (by exact_mod_cast h))]
  simp only [Char.ofNatAux, Char.toNat, UInt32.toNat, BitVec.toNat_ofNatLt]

/-- Looking a key up in the record built over a key list finds the normalized
value of that key (the first binding for the key wins, as in a JS object). -/
theorem lookup_map_pair (f : Str → Str) (l : List Str) (h : Str) (hm : h ∈ l) :
    (l.map (fun x => (x, f x))).lookup h = some (f h) := by
  induction l with
  | nil => cases hm
  | cons x xs ih =>
    by_cases hx : h = x
    · subst hx
      simp [List.lookup]
    · have hbeq : (h == x) = false := beq_false_of_ne hx
      have hmem : h ∈ xs := by
        cases hm with
        | head => exact absurd rfl hx
        | tail _ hmem => exact hmem
      simp [List.lookup, hbeq, ih hmem]

/-- Looking up a name that no column spec carries yields nothing. -/
theorem lookup_prnRawRecord_none (specs : List ColumnSpec) (line : Str) (h : Str)
    (hn : ∀ cs ∈ specs, cs.name ≠ h) :
    (prnRawRecord specs line).lookup h = none := by
  induction specs with
  | nil => rfl
  | cons s ss ih =>
    have hbeq : (h == s.name) = false :=
      beq_false_of_ne (fun he => hn s (List.mem_cons_self s ss) he.symm)
    simp only [prnRawRecord, List.map_cons, List.lookup, hbeq]
    exact ih (fun cs hcs => hn cs (List.mem_cons_of_mem s hcs))

/-- C1: every canonical record produced by the core (both extractors emit
through `normalizeRow` over `EXPECTED_HEADERS`) carries exactly the six
canonical keys in order; each key maps to the normalized string of the raw
value, and an absent raw value yields the per-field default — `"0.00"` for
Credit Limit and `""` for every other field. -/
theorem c1_canonical_record_complete (raw : Str → Option Str) (h : Str)
    (hmem : h ∈ EXPECTED_HEADERS) :
    (normalizeRow raw EXPECTED_HEADERS).map Prod.fst = EXPECTED_HEADERS ∧
    (normalizeRow raw EXPECTED_HEADERS).lookup h = some (normalizeFieldValue h (raw h)) ∧
    (raw h = none → (normalizeRow raw EXPECTED_HEADERS).lookup h = some (defaultFieldValue h)) ∧
    (∀ specs line rec, processDataLine specs line = some rec →
      rec = normalizeRow (fun k => (prnRawRecord specs line).lookup k) EXPECTED_HEADERS) := by
  refine ⟨?_, ?_, ?_, ?_⟩
  · simp [normalizeRow, List.map_map, Function.comp_def]
  · simpa [normalizeRow] using
      lookup_map_pair (fun x => normalizeFieldValue x (raw x)) EXPECTED_HEADERS h hmem
  · intro hnone
    have h2 := lookup_map_pair (fun x => normalizeFieldValue x (raw x)) EXPECTED_HEADERS h hmem
    simp only [hnone] at h2
    simpa [normalizeRow, normalizeFieldValue] using h2
  · intro specs line rec hrec
    unfold processDataLine at hrec
    split at hrec
    · exact absurd hrec (by simp)
    · exact (Option.some.injEq _ _ ▸ hrec).symm

/-- C1 witness: a raw row with every field absent normalizes to the full
six-key record of defaults; in particular Credit Limit defaults to `0.00`. -/
theorem c1_canonical_record_complete_witness :
    (normalizeRow (fun _ => none) EXPECTED_HEADERS).lookup hCreditLimit
      = some "0.00".data := by
  have h := (c1_canonical_record_complete (fun _ => none) hCreditLimit
    (by decide)).2.2.1 rfl
  rw [h]
  decide

/-- C8: the data-line slice is total — it always equals the in-bounds portion
`(line.drop start).take (end - start)` of the line, and a line no longer than
the column's start offset yields the empty raw value. -/
theorem c8_slicing_total (line : Str) (spec : ColumnSpec)
    (hse : spec.start ≤ spec.endIdx) :
    columnSlice line spec = (line.drop spec.start).take (spec.endIdx - spec.start) ∧
    (line.length ≤ spec.start → columnSlice line spec = []) := by
  constructor
  · unfold columnSlice jsSubstring
    split
    · rename_i hlt
      dsimp only
      have e1 : max (min spec.start line.length) (min (min spec.endIdx line.length) line.length)
          = min spec.endIdx line.length := by omega
      have e2 : min (min spec.start line.length) (min (min spec.endIdx line.length) line.length)
          = spec.start := by omega
      rw [e1, e2, List.drop_take, List.take_eq_take]
      simp only [List.length_drop]
      omega
    · rename_i hge
      have hnil : line.drop spec.start = [] := List.drop_eq_nil_of_le (by omega)
      rw [hnil, List.take_nil]
  · intro hlen
    unfold columnSlice
    rw [if_neg (by omega)]

/-- C8 witness: a spec whose end extends far past a three-character line
still slices to the in-bounds portion, and a start at or past the line's end
gives the empty value. -/
theorem c8_slicing_total_witness :
    columnSlice "abc".data ⟨hName, 1, 10⟩ = ("abc".data.drop 1).take 9 ∧
    ("abc".data.length ≤ 1 → columnSlice "abc".data ⟨hName, 1, 10⟩ = []) :=
  c8_slicing_total "abc".data ⟨hName, 1, 10⟩ (by decide)

/-- C7: on the Credit Limit column the record extractor hands the normalizer
`(parseInt(slice) / 100).toFixed(2)` when the trimmed slice parses as an
integer, and the empty string — which the normalizer resolves to the default
`"0.00"` — when it does not. -/
theorem c7_credit_limit_minor_units (line : Str) (spec : ColumnSpec)
    (hname : spec.name = hCreditLimit) :
    (∀ n, jsParseInt (jsTrim (columnSlice line spec)) = some n →
      extractFieldValue line spec = centsToFixed2 n) ∧
    (jsParseInt (jsTrim (columnSlice line spec)) = none →
      extractFieldValue line spec = [] ∧
      normalizeFieldValue hCreditLimit (some []) = "0.00".data) := by
  constructor
  · intro n hn
    unfold extractFieldValue
    rw [if_pos hname, hn]
  · intro hn
    refine ⟨?_, by decide⟩
    unfold extractFieldValue
    rw [if_pos hname, hn]

/-- C7 witness: the fixed-width slice `10000` is divided by 100 and reaches
the canonical value `100.00`, which the normalizer keeps unchanged. -/
theorem c7_credit_limit_minor_units_witness :
    extractFieldValue "10000".data ⟨hCreditLimit, 0, 5⟩ = "100.00".data ∧
    normalizeFieldValue hCreditLimit (some "100.00".data) = "100.00".data := by
  constructor
  · have h := (c7_credit_limit_minor_units "10000".data ⟨hCreditLimit, 0, 5⟩ rfl).1
      10000 (by decide)
    rw [h]
    decide
  · decide

/-- C10: `json` is one of the two allowed output types, yet the registry the
factory consults holds only the `html` renderer, so `createRenderer` throws
`Unsupported output type` for `json`; the JSON serializer itself exists and
would emit `[]` for zero records, but no factory path reaches it. -/
theorem c10_json_renderer_unreachable :
    "json".data ∈ ALLOWED_OUTPUT_TYPES ∧
    createRenderer "json".data = .error "Unsupported output type. No renderer registered." ∧
    (∀ t tag, createRenderer t = .ok tag → tag = RendererTag.html) ∧
    (∀ stringifyRow, jsonRender stringifyRow [] = "[]".data) := by
  refine ⟨by decide, rfl, ?_, fun _ => rfl⟩
  intro t tag h
  unfold createRenderer rendererRegistry at h
  by_cases ht : (t == "html".data) = true
  · simp only [List.lookup, ht] at h
    cases h
    rfl
  · have ht' : (t == "html".data) = false := by simpa using ht
    simp only [List.lookup, ht'] at h
    cases h

instance : IsTotal (Str × Nat) (fun p q => p.2 ≤ q.2) :=
  ⟨fun a b => Nat.le_total a.2 b.2⟩

instance : IsTrans (Str × Nat) (fun p q => p.2 ≤ q.2) :=
  ⟨fun _ _ _ h1 h2 => Nat.le_trans h1 h2⟩

/-- Building column specs keeps the found (name, start) pairs unchanged. -/
theorem buildColumnSpecs_map (lineLen : Nat) :
    ∀ ps : List (Str × Nat),
      (buildColumnSpecs lineLen ps).map (fun s => (s.name, s.start)) = ps
  | [] => rfl
  | [_] => rfl
  | p :: q :: rest => by
    simp only [buildColumnSpecs, List.map_cons]
    rw [buildColumnSpecs_map lineLen (q :: rest)]

/-- Consecutive column specs abut: each spec ends where the next starts. -/
theorem buildColumnSpecs_chain (lineLen : Nat) :
    ∀ ps : List (Str × Nat),
      List.Chain' (fun a b => a.endIdx = b.start) (buildColumnSpecs lineLen ps)
  | [] => List.chain'_nil
  | [p] => List.chain'_singleton _
  | p :: q :: rest => by
    have ih := buildColumnSpecs_chain lineLen (q :: rest)
    cases rest with
    | nil =>
      simp only [buildColumnSpecs]
      exact List.chain'_cons.mpr ⟨rfl, List.chain'_singleton _⟩
    | cons r rs =>
      simp only [buildColumnSpecs] at ih ⊢
      exact List.chain'_cons.mpr ⟨rfl, ih⟩

/-- The last built column spec ends at the header line's trimmed length. -/
theorem buildColumnSpecs_last (lineLen : Nat) :
    ∀ (ps : List (Str × Nat)) (c : ColumnSpec),
      (buildColumnSpecs lineLen ps).getLast? = some c → c.endIdx = lineLen
  | [], c => by intro h; simp [buildColumnSpecs] at h
  | [p], c => by
    intro h
    simp only [buildColumnSpecs, List.getLast?_singleton, Option.some.injEq] at h
    rw [← h]
  | p :: q :: rest, c => by
    intro h
    apply buildColumnSpecs_last lineLen (q :: rest) c
    cases rest with
    | nil => simpa [buildColumnSpecs] using h
    | cons r rs => simpa [buildColumnSpecs] using h

/-- A string whose trim is non-empty has a non-empty end-trim. -/
theorem jsTrimEnd_ne_nil (s : Str) (h : jsTrim s ≠ []) : jsTrimEnd s ≠ [] := by
  intro hn
  apply h
  have hrev : s.reverse.dropWhile jsIsSpace = [] := by
    have := congrArg List.reverse hn
    simpa [jsTrimEnd] using this
  have hall : ∀ c ∈ s, jsIsSpace c = true := by
    intro c hc
    exact List.dropWhile_eq_nil_iff.mp hrev c (List.mem_reverse.mpr hc)
  have hdrop : s.dropWhile jsIsSpace = [] :=
    List.dropWhile_eq_nil_iff.mpr (fun c hc => hall c hc)
  simp [jsTrim, hdrop, jsTrimEnd]

/-- C3: when layout inference succeeds, the resulting specs are exactly the
offset-advancing canonical-order search results sorted by start offset; the
start offsets are ascending, each spec ends at the next spec's start, and the
last spec ends at the right-trimmed header line's length. -/
theorem c3_layout_inference (line : Str) (specs : List ColumnSpec) (warns : List Str)
    (hok : processHeaderLine line = .ok (specs, warns)) :
    specs.map (fun s => (s.name, s.start)) =
      List.insertionSort (fun p q : Str × Nat => p.2 ≤ q.2)
        (findHeaderPositions (jsTrimEnd line)) ∧
    (specs.map ColumnSpec.start).Sorted (· ≤ ·) ∧
    List.Chain' (fun a b => a.endIdx = b.start) specs ∧
    (∀ lastSpec, specs.getLast? = some lastSpec →
      lastSpec.endIdx = (jsTrimEnd line).length) := by
  simp only [processHeaderLine] at hok
  split at hok
  · exact absurd hok (by simp)
  · simp only [Except.ok.injEq, Prod.mk.injEq] at hok
    obtain ⟨hs, hw⟩ := hok
    subst hs
    refine ⟨buildColumnSpecs_map _ _, ?_, buildColumnSpecs_chain _ _, ?_⟩
    · have hsorted : List.Sorted (fun p q : Str × Nat => p.2 ≤ q.2)
          (List.insertionSort (fun p q : Str × Nat => p.2 ≤ q.2)
            (findHeaderPositions (jsTrimEnd line))) :=
        List.sorted_insertionSort _ _
      rw [← buildColumnSpecs_map (jsTrimEnd line).length
        (List.insertionSort (fun p q : Str × Nat => p.2 ≤ q.2)
          (findHeaderPositions (jsTrimEnd line)))] at hsorted
      have hmap : (buildColumnSpecs (jsTrimEnd line).length
          (List.insertionSort (fun p q : Str × Nat => p.2 ≤ q.2)
            (findHeaderPositions (jsTrimEnd line)))).map ColumnSpec.start
          = ((buildColumnSpecs (jsTrimEnd line).length
            (List.insertionSort (fun p q : Str × Nat => p.2 ≤ q.2)
              (findHeaderPositions (jsTrimEnd line)))).map
                (fun s => (s.name, s.start))).map Prod.snd := by
        simp [List.map_map]
      rw [hmap]
      exact List.Pairwise.map Prod.snd (fun a b hab => hab) hsorted
    · intro lastSpec hl
      exact buildColumnSpecs_last _ _ _ hl

/-- C3 witness: the canonical sample header produces abutting specs sorted by
start, the last ending at the trimmed header length. -/
theorem c3_layout_inference_witness :
    ([⟨hName, 0, 5⟩, ⟨hAddress, 5, 13⟩, ⟨hPostcode, 13, 22⟩, ⟨hPhone, 22, 28⟩,
      ⟨hCreditLimit, 28, 41⟩, ⟨hBirthday, 41, 49⟩] : List ColumnSpec).map
        (fun s => (s.name, s.start)) =
      List.insertionSort (fun p q : Str × Nat => p.2 ≤ q.2)
        (findHeaderPositions (jsTrimEnd "Name Address Postcode Phone Credit Limit Birthday".data)) ∧
    (([⟨hName, 0, 5⟩, ⟨hAddress, 5, 13⟩, ⟨hPostcode, 13, 22⟩, ⟨hPhone, 22, 28⟩,
      ⟨hCreditLimit, 28, 41⟩, ⟨hBirthday, 41, 49⟩] : List ColumnSpec).map
        ColumnSpec.start).Sorted (· ≤ ·) ∧
    List.Chain' (fun a b => a.endIdx = b.start)
      ([⟨hName, 0, 5⟩, ⟨hAddress, 5, 13⟩, ⟨hPostcode, 13, 22⟩, ⟨hPhone, 22, 28⟩,
        ⟨hCreditLimit, 28, 41⟩, ⟨hBirthday, 41, 49⟩] : List ColumnSpec) ∧
    (∀ lastSpec,
      ([⟨hName, 0, 5⟩, ⟨hAddress, 5, 13⟩, ⟨hPostcode, 13, 22⟩, ⟨hPhone, 22, 28⟩,
        ⟨hCreditLimit, 28, 41⟩, ⟨hBirthday, 41, 49⟩] : List ColumnSpec).getLast? = some lastSpec →
      lastSpec.endIdx = (jsTrimEnd "Name Address Postcode Phone Credit Limit Birthday".data).length) :=
  c3_layout_inference "Name Address Postcode Phone Credit Limit Birthday".data _ [] (by rfl)

/-- C4: on a non-blank fixed-width header line, finding none of the six
canonical names is a fatal stream-terminating error; finding at least one is
non-fatal — the parser proceeds with the found specs, reports the unfound
names as a warning, and every emitted data row resolves each unfound field to
its per-field default. -/
theorem c4_header_error_policy (line : Str) (hnb : jsTrim line ≠ []) :
    (findHeaderPositions (jsTrimEnd line) = [] →
      processHeaderLine line =
        .error "PRN Error: Could not derive any column specifications from PRN header line. Ensure headers match EXPECTED_HEADERS.") ∧
    (∀ specs warns, processHeaderLine line = .ok (specs, warns) →
      specs ≠ [] ∧
      (specs.length < EXPECTED_HEADERS.length → warns ≠ []) ∧
      (∀ h ∈ EXPECTED_HEADERS, (∀ cs ∈ specs, cs.name ≠ h) →
        ∀ dline rec, processDataLine specs dline = some rec →
          rec.lookup h = some (defaultFieldValue h))) := by
  have hlen : 0 < (jsTrimEnd line).length :=
    List.length_pos.mpr (jsTrimEnd_ne_nil line hnb)
  constructor
  · intro hempty
    simp [processHeaderLine, hempty, List.insertionSort, buildColumnSpecs, hlen]
  · intro specs warns hok
    simp only [processHeaderLine] at hok
    split at hok
    · exact absurd hok (by simp)
    · rename_i hcond
      simp only [Except.ok.injEq, Prod.mk.injEq] at hok
      obtain ⟨hs, hw⟩ := hok
      rw [hs] at hcond
      rw [hs] at hw
      refine ⟨?_, ?_, ?_⟩
      · intro hnil
        exact hcond ⟨by simp [hnil], hlen⟩
      · intro hlt
        rw [← hw, if_pos ⟨hlt, hlen⟩]
        intro hfil
        have hforall := List.filter_eq_nil_iff.mp hfil
        have hsub : EXPECTED_HEADERS.toFinset ⊆ (specs.map ColumnSpec.name).toFinset := by
          intro eh hehf
          have heh : eh ∈ EXPECTED_HEADERS := List.mem_toFinset.mp hehf
          have hnot := hforall eh heh
          have hany : specs.any (fun cs => cs.name == eh) = true := by
            simpa using hnot
          obtain ⟨cs, hcs, hcseq⟩ := List.any_eq_true.mp hany
          have hname : cs.name = eh := by simpa using hcseq
          exact List.mem_toFinset.mpr (hname ▸ List.mem_map_of_mem ColumnSpec.name hcs)
        have hcard : EXPECTED_HEADERS.toFinset.card ≤ (specs.map ColumnSpec.name).toFinset.card :=
          Finset.card_le_card hsub
        have h6 : EXPECTED_HEADERS.toFinset.card = 6 := by decide
        have hfin : (specs.map ColumnSpec.name).toFinset.card ≤ specs.length := by
          calc (specs.map ColumnSpec.name).toFinset.card
              ≤ (specs.map ColumnSpec.name).length := (specs.map ColumnSpec.name).toFinset_card_le
            _ = specs.length := List.length_map _ _
        have h6' : EXPECTED_HEADERS.length = 6 := by decide
        omega
      · intro h hmem hnospec dline rec hrec
        have hrec' : rec = normalizeRow
            (fun k => (prnRawRecord specs dline).lookup k) EXPECTED_HEADERS := by
          simp only [processDataLine] at hrec
          split at hrec
          · exact absurd hrec (by simp)
          · exact (Option.some.injEq _ _ ▸ hrec).symm
        have hnone : (prnRawRecord specs dline).lookup h = none :=
          lookup_prnRawRecord_none specs dline h hnospec
        rw [hrec']
        have hlk := lookup_map_pair
          (fun x => normalizeFieldValue x ((prnRawRecord specs dline).lookup x))
          EXPECTED_HEADERS h hmem
        simp only [hnone] at hlk
        simpa [normalizeRow, normalizeFieldValue] using hlk

/-- C4 witness: a header with no canonical name is a fatal error; a header
carrying only Name and Postcode parses, and a data row under it resolves the
unfound Phone field to the empty-string default. -/
theorem c4_header_error_policy_witness :
    processHeaderLine "xxxx".data =
      .error "PRN Error: Could not derive any column specifications from PRN header line. Ensure headers match EXPECTED_HEADERS." ∧
    (processDataLine [⟨hName, 0, 5⟩, ⟨hPostcode, 5, 13⟩] "Johnson  3122gg".data).bind
      (fun rec => rec.lookup hPhone) = some [] := by
  constructor
  · exact (c4_header_error_policy "xxxx".data (by decide)).1 (by decide)
  · cases hr : processDataLine [⟨hName, 0, 5⟩, ⟨hPostcode, 5, 13⟩] "Johnson  3122gg".data with
    | none => exact absurd hr (by decide)
    | some rec =>
      have h2 := ((c4_header_error_policy "Name Postcode".data (by decide)).2
        [⟨hName, 0, 5⟩, ⟨hPostcode, 5, 13⟩] [hAddress, hPhone, hCreditLimit, hBirthday]
        (by rfl)).2.2 hPhone (by decide) (by decide) "Johnson  3122gg".data rec hr
      simp only [Option.some_bind]
      rw [h2]
      decide

/-- Digit characters produced by `Nat.digitChar` below ten are digits. -/
theorem digitChar_isDigit (k : Nat) (hk : k < 10) : (Nat.digitChar k).isDigit = true := by
  interval_cases k <;> decide

/-- The rounded hundredths of a `DecNum` are exactly the floor of
`|value| * 100 + 1/2` — nearest hundredth with ties upward in magnitude. -/
theorem roundHundredths_eq_floor (x : DecNum) :
    (roundHundredths x : ℤ) = ⌊|x.toRat| * 100 + 1 / 2⌋ := by
  have h10 : (0:ℚ) < (10:ℚ) ^ x.exp := zpow_pos (by norm_num) _
  have hcast : |((x.mant : ℚ))| = (x.mant.natAbs : ℚ) := by
    rw [Int.cast_natAbs]
    exact Int.cast_abs.symm
  have habs : |x.toRat| * 100 = (x.mant.natAbs : ℚ) * (10 : ℚ) ^ (x.exp + 2) := by
    unfold DecNum.toRat
    rw [abs_mul, abs_of_pos h10, hcast,
      zpow_add₀ (by norm_num : (10:ℚ) ≠ 0) x.exp 2]
    have h2 : (10:ℚ) ^ (2:ℤ) = 100 := by norm_num
    rw [h2]
    ring
  unfold roundHundredths
  split
  · rename_i hpos
    have hk : ((x.exp + 2).toNat : ℤ) = x.exp + 2 := Int.toNat_of_nonneg hpos
    have hzp : (10:ℚ) ^ (x.exp + 2) = (10:ℚ) ^ ((x.exp + 2).toNat) := by
      rw [← zpow_natCast (10:ℚ) ((x.exp + 2).toNat), hk]
    have hN : |x.toRat| * 100 = ((x.mant.natAbs * 10 ^ (x.exp + 2).toNat : ℕ) : ℚ) := by
      rw [habs, hzp]
      push_cast
      ring
    rw [hN, Int.floor_nat_add]
    have hhalf : ⌊(1 / 2 : ℚ)⌋ = 0 := by
      rw [Int.floor_eq_zero_iff]
      constructor <;> norm_num
    rw [hhalf]
    push_cast
    ring
  · rename_i hneg
    have hk : ((-(x.exp + 2)).toNat : ℤ) = -(x.exp + 2) := Int.toNat_of_nonneg (by omega)
    have hzp2 : (10:ℚ) ^ (x.exp + 2) = ((10:ℚ) ^ ((-(x.exp + 2)).toNat))⁻¹ := by
      rw [← zpow_natCast (10:ℚ) ((-(x.exp + 2)).toNat), hk, ← zpow_neg, neg_neg]
    have hKpos : (0:ℚ) < (10:ℚ) ^ ((-(x.exp + 2)).toNat) := by positivity
    have hsum : |x.toRat| * 100 + 1 / 2 =
        ((2 * x.mant.natAbs + 10 ^ (-(x.exp + 2)).toNat : ℕ) : ℚ)
          / ((2 * 10 ^ (-(x.exp + 2)).toNat : ℕ) : ℚ) := by
      rw [habs, hzp2]
      push_cast
      field_simp
      ring
    rw [hsum, Rat.floor_natCast_div_natCast]
    exact Int.ofNat_div _ _

/-- C6 counterexample: `1e21` parses as a decimal literal, yet the program
prints it as `1e+21` — the ECMA `toFixed` fallback to `ToString` — with no
fractional digits at all and not as `0.00`; likewise `Infinity` yields
`Infinity`. The claimed dichotomy (`0.00` on parse failure, two fractional
digits on success) is therefore false of the program. -/
theorem c6_credit_limit_counterexample :
    normalizeFieldValue hCreditLimit (some "1e21".data) = "1e+21".data ∧
    normalizeFieldValue hCreditLimit (some "1e21".data) ≠ "0.00".data ∧
    '.' ∉ normalizeFieldValue hCreditLimit (some "1e21".data) ∧
    normalizeFieldValue hCreditLimit (some "Infinity".data) = "Infinity".data := by
  refine ⟨by decide, by decide, by decide, by decide⟩

/-- C6 (amended): the Credit Limit normalizer accepts a comma as decimal
separator by replacing the first comma with a dot before parsing; a value
whose comma-normalized trim fails to parse (and an absent value) yields
exactly `"0.00"`; a value parsing to a signed infinity yields `Infinity`
with its sign; a value parsing to a finite number is printed as its rounded
hundredths — a sign and exactly two fractional digits — when its magnitude
is below 1e21, and as the ECMA `ToString` of its magnitude (exponential
form) with its sign once the magnitude reaches 1e21. -/
theorem c6_credit_limit_normalization (v : Str) :
    normalizeFieldValue hCreditLimit none = "0.00".data ∧
    (jsParseFloat (jsReplaceFirst (jsTrim v) ',' '.') = none →
      normalizeFieldValue hCreditLimit (some v) = "0.00".data) ∧
    (∀ neg, jsParseFloat (jsReplaceFirst (jsTrim v) ',' '.') = some (JsNum.inf neg) →
      normalizeFieldValue hCreditLimit (some v)
        = (if neg then ['-'] else []) ++ "Infinity".data) ∧
    (∀ x, jsParseFloat (jsReplaceFirst (jsTrim v) ',' '.') = some (JsNum.finite x) →
      normalizeFieldValue hCreditLimit (some v) = jsToFixed2 x ∧
      (roundHundredths x : ℤ) = ⌊|x.toRat| * 100 + 1 / 2⌋ ∧
      (decNumAbsGe1e21 x = false →
        ∃ intDigits d1 d2,
          normalizeFieldValue hCreditLimit (some v)
            = (if x.mant < 0 then ['-'] else []) ++ intDigits ++ ['.', d1, d2] ∧
          d1.isDigit = true ∧ d2.isDigit = true) ∧
      (decNumAbsGe1e21 x = true →
        normalizeFieldValue hCreditLimit (some v)
          = (if x.mant < 0 then ['-'] else []) ++ jsNumToStringMag x)) := by
  have hred : normalizeFieldValue hCreditLimit (some v) = normalizeCreditLimit (jsTrim v) := rfl
  refine ⟨by decide, ?_, ?_, ?_⟩
  · intro hn
    rw [hred]
    unfold normalizeCreditLimit
    rw [hn]
  · intro neg hn
    rw [hred]
    unfold normalizeCreditLimit
    rw [hn]
  · intro x hx
    have heq : normalizeFieldValue hCreditLimit (some v) = jsToFixed2 x := by
      rw [hred]
      unfold normalizeCreditLimit
      rw [hx]
    refine ⟨heq, roundHundredths_eq_floor x, ?_, ?_⟩
    · intro hsmall
      refine ⟨natToDec (roundHundredths x / 100),
        Nat.digitChar (roundHundredths x % 100 / 10),
        Nat.digitChar (roundHundredths x % 100 % 10), ?_, ?_, ?_⟩
      · rw [heq]
        unfold jsToFixed2 twoDigits
        rw [hsmall]
        simp [List.append_assoc]
      · exact digitChar_isDigit _ (by omega)
      · exact digitChar_isDigit _ (by omega)
    · intro hbig
      rw [heq]
      unfold jsToFixed2
      rw [hbig]
      simp

/-- C6 witness: `54,5` parses through the comma-to-dot path to 54.5 = 545e-1,
is below the 1e21 fallback threshold, and prints as `54.50`; `NOTANUMBER`
fails to parse and yields `0.00`. -/
theorem c6_credit_limit_normalization_witness :
    normalizeFieldValue hCreditLimit (some "54,5".data) = jsToFixed2 ⟨545, -1⟩ ∧
    normalizeFieldValue hCreditLimit (some "NOTANUMBER".data) = "0.00".data :=
  ⟨((c6_credit_limit_normalization "54,5".data).2.2.2 ⟨545, -1⟩ (by decide)).1,
   (c6_credit_limit_normalization "NOTANUMBER".data).2.1 (by decide)⟩

/-- The zero-padded form of a one-or-two character string has two characters. -/
theorem pad2Str_length (s : Str) (h1 : 1 ≤ s.length) (h2 : s.length ≤ 2) :
    (pad2Str s).length = 2 := by
  unfold pad2Str
  split
  · omega
  · simp only [List.length_append, List.length_replicate]
    omega

/-- Zero-padding a digit string keeps it a digit string. -/
theorem pad2Str_all (s : Str) (hd : s.all Char.isDigit = true) :
    (pad2Str s).all Char.isDigit = true := by
  unfold pad2Str
  split
  · exact hd
  · simp only [List.all_append, Bool.and_eq_true]
    refine ⟨?_, hd⟩
    simp only [List.all_eq_true, List.mem_replicate]
    intro c hc
    rw [hc.2]
    decide

/-- Padding a two-character string is the identity. -/
theorem pad2Str_eq_self (s : Str) (h : s.length = 2) : pad2Str s = s := by
  unfold pad2Str
  rw [if_pos (by omega)]

/-- Structure of a successful slash-date match: the day and month groups are
one-or-two digit runs and the year group is exactly four digits. -/
theorem matchSlashDate_facts (s d m y : Str) (h : matchSlashDate s = some (d, m, y)) :
    1 ≤ d.length ∧ d.length ≤ 2 ∧ d.all Char.isDigit = true ∧
    1 ≤ m.length ∧ m.length ≤ 2 ∧ m.all Char.isDigit = true ∧
    y.length = 4 ∧ y.all Char.isDigit = true := by
  unfold matchSlashDate at h
  split at h
  · rename_i r2 heq1
    split at h
    · rename_i g3 heq2
      dsimp only at h
      split at h
      · rename_i hguard
        simp only [Option.some.injEq, Prod.mk.injEq] at h
        obtain ⟨hd, hm, hy⟩ := h
        subst hd
        subst hm
        subst hy
        simp only [Bool.and_eq_true, decide_eq_true_eq, beq_iff_eq] at hguard
        obtain ⟨⟨⟨⟨⟨h1, h2⟩, h3⟩, h4⟩, h5⟩, h6⟩ := hguard
        exact ⟨h1, h2, List.all_takeWhile, h3, h4, List.all_takeWhile, h5, h6⟩
      · exact absurd h (by simp)
    · exact absurd h (by simp)
  · exact absurd h (by simp)

/-- Structure of a successful eight-digit match: groups of four, two, and two
digits. -/
theorem matchEightDigitDate_facts (s y m d : Str)
    (h : matchEightDigitDate s = some (y, m, d)) :
    y.length = 4 ∧ m.length = 2 ∧ d.length = 2 ∧
    y.all Char.isDigit = true ∧ m.all Char.isDigit = true ∧ d.all Char.isDigit = true := by
  unfold matchEightDigitDate at h
  split at h
  · rename_i hguard
    simp only [Bool.and_eq_true, beq_iff_eq] at hguard
    obtain ⟨hlen, hall⟩ := hguard
    simp only [Option.some.injEq, Prod.mk.injEq] at h
    obtain ⟨hy, hm, hd⟩ := h
    subst hy
    subst hm
    subst hd
    have hsub : ∀ t : Str, (∀ c ∈ t, c ∈ s) → t.all Char.isDigit = true := by
      intro t ht
      simp only [List.all_eq_true] at hall ⊢
      exact fun c hc => hall c (ht c hc)
    refine ⟨?_, ?_, ?_, ?_, ?_, ?_⟩
    · simp only [List.length_take]
      omega
    · simp only [List.length_take, List.length_drop]
      omega
    · simp only [List.length_drop]
      omega
    · exact hsub _ (fun c hc => List.mem_of_mem_take hc)
    · exact hsub _ (fun c hc => List.mem_of_mem_drop (List.mem_of_mem_take hc))
    · exact hsub _ (fun c hc => List.mem_of_mem_drop hc)
  · exact absurd h (by simp)

/-- Structure of a successful dash-date match: a four-digit year and
one-or-two digit month and day groups. -/
theorem matchDashDate_facts (s y m d : Str) (h : matchDashDate s = some (y, m, d)) :
    y.length = 4 ∧ y.all Char.isDigit = true ∧
    1 ≤ m.length ∧ m.length ≤ 2 ∧ m.all Char.isDigit = true ∧
    1 ≤ d.length ∧ d.length ≤ 2 ∧ d.all Char.isDigit = true := by
  unfold matchDashDate at h
  split at h
  · rename_i r2 heq1
    split at h
    · rename_i g3 heq2
      dsimp only at h
      split at h
      · rename_i hguard
        simp only [Option.some.injEq, Prod.mk.injEq] at h
        obtain ⟨hy, hm, hd⟩ := h
        subst hy
        subst hm
        subst hd
        simp only [Bool.and_eq_true, decide_eq_true_eq, beq_iff_eq] at hguard
        obtain ⟨⟨⟨⟨⟨h1, h2⟩, h3⟩, h4⟩, h5⟩, h6⟩ := hguard
        exact ⟨h1, List.all_takeWhile, h2, h3, List.all_takeWhile, h4, h5, h6⟩
      · exact absurd h (by simp)
    · exact absurd h (by simp)
  · exact absurd h (by simp)

/-- C5: Birthday normalization tries exactly the slash shape, then eight
contiguous digits, then the dash shape, first match winning; a match is
printed as a four-digit year, a dash, a zero-padded two-digit month, a dash
and a zero-padded two-digit day, and a value matching no shape is returned as
its trimmed self with no error. -/
theorem c5_birthday_normalization (v : Str) :
    (∀ d m y, matchSlashDate (jsTrim v) = some (d, m, y) →
      normalizeFieldValue hBirthday (some v) = y ++ '-' :: pad2Str m ++ '-' :: pad2Str d ∧
      y.length = 4 ∧ (pad2Str m).length = 2 ∧ (pad2Str d).length = 2 ∧
      (y ++ pad2Str m ++ pad2Str d).all Char.isDigit = true) ∧
    (matchSlashDate (jsTrim v) = none →
      ∀ y m d, matchEightDigitDate (jsTrim v) = some (y, m, d) →
      normalizeFieldValue hBirthday (some v) = y ++ '-' :: m ++ '-' :: d ∧
      y.length = 4 ∧ m.length = 2 ∧ d.length = 2 ∧
      (y ++ m ++ d).all Char.isDigit = true) ∧
    (matchSlashDate (jsTrim v) = none → matchEightDigitDate (jsTrim v) = none →
      ∀ y m d, matchDashDate (jsTrim v) = some (y, m, d) →
      normalizeFieldValue hBirthday (some v) = y ++ '-' :: pad2Str m ++ '-' :: pad2Str d ∧
      y.length = 4 ∧ (pad2Str m).length = 2 ∧ (pad2Str d).length = 2 ∧
      (y ++ pad2Str m ++ pad2Str d).all Char.isDigit = true) ∧
    (matchSlashDate (jsTrim v) = none → matchEightDigitDate (jsTrim v) = none →
      matchDashDate (jsTrim v) = none →
      normalizeFieldValue hBirthday (some v) = jsTrim v) := by
  have hred : normalizeFieldValue hBirthday (some v) = normalizeBirthday (jsTrim v) := rfl
  refine ⟨?_, ?_, ?_, ?_⟩
  · intro d m y hs
    obtain ⟨h1, h2, h3, h4, h5, h6, h7, h8⟩ := matchSlashDate_facts _ _ _ _ hs
    refine ⟨?_, h7, pad2Str_length m h4 h5, pad2Str_length d h1 h2, ?_⟩
    · rw [hred]
      simp [normalizeBirthday, hs]
    · simp only [List.all_append, Bool.and_eq_true]
      exact ⟨⟨h8, pad2Str_all m h6⟩, pad2Str_all d h3⟩
  · intro hs y m d he
    obtain ⟨h1, h2, h3, h4, h5, h6⟩ := matchEightDigitDate_facts _ _ _ _ he
    refine ⟨?_, h1, h2, h3, ?_⟩
    · rw [hred]
      simp [normalizeBirthday, hs, he]
    · simp only [List.all_append, Bool.and_eq_true]
      exact ⟨⟨h4, h5⟩, h6⟩
  · intro hs he y m d hdash
    obtain ⟨h1, h2, h3, h4, h5, h6, h7, h8⟩ := matchDashDate_facts _ _ _ _ hdash
    refine ⟨?_, h1, pad2Str_length m h3 h4, pad2Str_length d h6 h7, ?_⟩
    · rw [hred]
      simp [normalizeBirthday, hs, he, hdash]
    · simp only [List.all_append, Bool.and_eq_true]
      exact ⟨⟨h2, pad2Str_all m h5⟩, pad2Str_all d h8⟩
  · intro hs he hdash
    rw [hred]
    simp [normalizeBirthday, hs, he, hdash]

/-- C5 witness: the three spec examples and the unrecognized fallback. -/
theorem c5_birthday_normalization_witness :
    normalizeFieldValue hBirthday (some "01/01/1987".data) = "1987-01-01".data ∧
    normalizeFieldValue hBirthday (some "19870101".data) = "1987-01-01".data ∧
    normalizeFieldValue hBirthday (some "2000-1-5".data) = "2000-01-05".data ∧
    normalizeFieldValue hBirthday (some " Jan 1987 ".data) = "Jan 1987".data := by
  refine ⟨?_, ?_, ?_, ?_⟩
  · have h := ((c5_birthday_normalization "01/01/1987".data).1
      "01".data "01".data "1987".data (by decide)).1
    rw [h]
    decide
  · have h := ((c5_birthday_normalization "19870101".data).2.1 (by decide)
      "1987".data "01".data "01".data (by decide)).1
    rw [h]
    decide
  · have h := ((c5_birthday_normalization "2000-1-5".data).2.2.1 (by decide) (by decide)
      "2000".data "1".data "5".data (by decide)).1
    rw [h]
    decide
  · have h := (c5_birthday_normalization " Jan 1987 ".data).2.2.2
      (by decide) (by decide) (by decide)
    rw [h]
    decide

/-- Decimal code-point bounds of a digit character. -/
theorem isDigit_toNat (c : Char) (h : c.isDigit = true) : 48 ≤ c.toNat ∧ c.toNat ≤ 57 := by
  unfold Char.isDigit at h
  simp only [Bool.and_eq_true, decide_eq_true_eq] at h
  exact ⟨h.1, h.2⟩

/-- Digit characters are not whitespace. -/
theorem isDigit_nonspace (c : Char) (h : c.isDigit = true) : jsIsSpace c = false := by
  have hb := isDigit_toNat c h
  unfold jsIsSpace
  simp only [Bool.or_eq_false_iff, decide_eq_false_iff_not]
  omega

/-- Uppercasing an ASCII lowercase letter lands in the uppercase range. -/
theorem jsToUpperChar_toNat (c : Char) (h : 97 ≤ c.toNat ∧ c.toNat ≤ 122) :
    (jsToUpperChar c).toNat = c.toNat - 32 := by
  unfold jsToUpperChar
  rw [if_pos h]
  exact char_toNat_ofNat _ (by omega)

/-- Uppercasing leaves a character outside the lowercase range unchanged. -/
theorem jsToUpperChar_notLower (c : Char) (h : ¬(97 ≤ c.toNat ∧ c.toNat ≤ 122)) :
    jsToUpperChar c = c := by
  unfold jsToUpperChar
  rw [if_neg h]

/-- JS uppercasing is idempotent on a single code point. -/
theorem jsToUpperChar_idem (c : Char) : jsToUpperChar (jsToUpperChar c) = jsToUpperChar c := by
  by_cases h : 97 ≤ c.toNat ∧ c.toNat ≤ 122
  · have ht := jsToUpperChar_toNat c h
    exact jsToUpperChar_notLower _ (by rw [ht]; omega)
  · rw [jsToUpperChar_notLower c h]
    exact jsToUpperChar_notLower c h

/-- JS uppercasing never turns a non-space character into whitespace. -/
theorem jsToUpperChar_nonspace (c : Char) (h : jsIsSpace c = false) :
    jsIsSpace (jsToUpperChar c) = false := by
  by_cases hr : 97 ≤ c.toNat ∧ c.toNat ≤ 122
  · have ht := jsToUpperChar_toNat c hr
    unfold jsIsSpace
    simp only [Bool.or_eq_false_iff, decide_eq_false_iff_not, ht]
    omega
  · rw [jsToUpperChar_notLower c hr]
    exact h

/-- A list whose head is rejected by `p` is unchanged by `dropWhile`. -/
theorem dropWhile_eq_self_of_head (p : Char → Bool) (l : Str)
    (h : ∀ c, l.head? = some c → p c = false) : l.dropWhile p = l := by
  cases l with
  | nil => rfl
  | cons c cs =>
    rw [List.dropWhile_cons, if_neg (by simp [h c rfl])]

/-- The head of a `dropWhile` result is rejected by the predicate. -/
theorem dropWhile_head_not (p : Char → Bool) :
    ∀ (l : Str) (c : Char) (cs : Str), l.dropWhile p = c :: cs → p c = false
  | [], c, cs => by
    intro h
    simp at h
  | a :: l, c, cs => by
    intro h
    rw [List.dropWhile_cons] at h
    by_cases hpa : p a = true
    · rw [if_pos hpa] at h
      exact dropWhile_head_not p l c cs h
    · rw [if_neg hpa] at h
      injection h with h1 _
      rw [← h1]
      simpa using hpa

/-- Membership from a successful `getLast?`. -/
theorem mem_of_getLast?_eq (l : Str) (c : Char) (h : l.getLast? = some c) : c ∈ l := by
  have h1 : l.reverse.head? = some c := by
    rw [List.head?_reverse]
    exact h
  cases hl : l.reverse with
  | nil =>
    rw [hl] at h1
    simp at h1
  | cons a as =>
    rw [hl] at h1
    simp only [List.head?_cons, Option.some.injEq] at h1
    refine List.mem_reverse.mp ?_
    rw [hl, h1]
    exact List.mem_cons_self c as

/-- A string whose last character is not whitespace is unchanged by
`trimEnd`. -/
theorem jsTrimEnd_eq_self_of_last (s : Str)
    (h : ∀ c, s.getLast? = some c → jsIsSpace c = false) : jsTrimEnd s = s := by
  unfold jsTrimEnd
  rw [dropWhile_eq_self_of_head jsIsSpace s.reverse
    (fun c hc => h c ((List.head?_reverse s) ▸ hc)), List.reverse_reverse]

/-- A string with no whitespace character at all is unchanged by `trim`. -/
theorem jsTrim_eq_self (s : Str) (h : ∀ c ∈ s, jsIsSpace c = false) : jsTrim s = s := by
  unfold jsTrim
  have h1 : s.dropWhile jsIsSpace = s := by
    cases s with
    | nil => rfl
    | cons a as => rw [List.dropWhile_cons, if_neg (by simp [h a (List.mem_cons_self a as)])]
  rw [h1]
  exact jsTrimEnd_eq_self_of_last s (fun c hc => h c (mem_of_getLast?_eq s c hc))

/-- Trimming is idempotent: a trimmed string has a non-space head and last. -/
theorem jsTrim_idem (s : Str) : jsTrim (jsTrim s) = jsTrim s := by
  have hu : jsTrim s = ((s.dropWhile jsIsSpace).reverse.dropWhile jsIsSpace).reverse := rfl
  cases hcase : jsTrim s with
  | nil => rfl
  | cons c cs =>
    rw [← hcase]
    have hhead : jsIsSpace c = false := by
      have h1 : (jsTrim s).head? = some c := by
        rw [hcase]
        rfl
      rw [hu, List.head?_reverse] at h1
      have hne : (s.dropWhile jsIsSpace).reverse.dropWhile jsIsSpace ≠ [] := by
        intro hnil
        rw [hnil] at h1
        simp at h1
      obtain ⟨pre, hpre⟩ :=
        List.dropWhile_suffix (l := (s.dropWhile jsIsSpace).reverse) jsIsSpace
      have h2 : (s.dropWhile jsIsSpace).reverse.getLast? = some c := by
        rw [← hpre, List.getLast?_append_of_ne_nil _ hne]
        exact h1
      rw [List.getLast?_reverse] at h2
      cases htt : s.dropWhile jsIsSpace with
      | nil =>
        rw [htt] at h2
        simp at h2
      | cons a as =>
        rw [htt] at h2
        simp only [List.head?_cons, Option.some.injEq] at h2
        exact h2 ▸ dropWhile_head_not jsIsSpace s a as htt
    have hlast : ∀ d, (jsTrim s).getLast? = some d → jsIsSpace d = false := by
      intro d hd
      rw [hu, List.getLast?_reverse] at hd
      cases hdw : (s.dropWhile jsIsSpace).reverse.dropWhile jsIsSpace with
      | nil =>
        rw [hdw] at hd
        simp at hd
      | cons a as =>
        rw [hdw] at hd
        simp only [List.head?_cons, Option.some.injEq] at hd
        exact hd ▸ dropWhile_head_not jsIsSpace _ a as hdw
    have hdrop : (jsTrim s).dropWhile jsIsSpace = jsTrim s := by
      rw [hcase]
      exact dropWhile_eq_self_of_head _ _ (fun e he => by
        simp only [List.head?_cons, Option.some.injEq] at he
        rw [← he]
        exact hhead)
    calc jsTrim (jsTrim s) = jsTrimEnd ((jsTrim s).dropWhile jsIsSpace) := rfl
      _ = jsTrimEnd (jsTrim s) := by rw [hdrop]
      _ = jsTrim s := jsTrimEnd_eq_self_of_last _ hlast

/-- Scanning a digit-run boundary: `takeWhile`/`dropWhile` split an
all-accepted prefix followed by a rejected separator exactly there. -/
theorem takeWhile_append_all (p : Char → Bool) (a b : Str) (x : Char)
    (ha : a.all p = true) (hx : p x = false) :
    (a ++ x :: b).takeWhile p = a ∧ (a ++ x :: b).dropWhile p = x :: b := by
  induction a with
  | nil => simp [List.takeWhile_cons, List.dropWhile_cons, hx]
  | cons c cs ih =>
    simp only [List.all_cons, Bool.and_eq_true] at ha
    obtain ⟨hc, hcs⟩ := ha
    obtain ⟨ih1, ih2⟩ := ih hcs
    constructor
    · simp [List.takeWhile_cons, hc, ih1]
    · simp [List.dropWhile_cons, hc, ih2]

/-- A canonical dash date re-matches the dash shape with its own groups. -/
theorem matchDashDate_build (y m d : Str) (hy4 : y.length = 4)
    (hyd : y.all Char.isDigit = true) (hm2 : m.length = 2)
    (hmd : m.all Char.isDigit = true) (hd2 : d.length = 2)
    (hdd : d.all Char.isDigit = true) :
    matchDashDate (y ++ '-' :: (m ++ '-' :: d)) = some (y, m, d) := by
  have hy := takeWhile_append_all Char.isDigit y (m ++ '-' :: d) '-' hyd (by decide)
  have hm := takeWhile_append_all Char.isDigit m d '-' hmd (by decide)
  simp only [matchDashDate, hy.1, hy.2, hm.1, hm.2]
  rw [if_pos (by simp [hy4, hm2, hd2, hdd])]

/-- The slash shape never matches a digit run followed by a dash. -/
theorem matchSlashDate_of_dash (a b : Str) (ha : a.all Char.isDigit = true) :
    matchSlashDate (a ++ '-' :: b) = none := by
  have h := takeWhile_append_all Char.isDigit a b '-' ha (by decide)
  simp [matchSlashDate, h.2]

/-- The eight-digit shape requires exactly eight characters. -/
theorem matchEightDigitDate_of_length (s : Str) (h : s.length ≠ 8) :
    matchEightDigitDate s = none := by
  unfold matchEightDigitDate
  have hb : (s.length == 8) = false := by simpa using h
  simp [hb]

/-- A canonical dash date contains no whitespace (digits and dashes only). -/
theorem canonical_no_space (y m d : Str) (hyd : y.all Char.isDigit = true)
    (hmd : m.all Char.isDigit = true) (hdd : d.all Char.isDigit = true) :
    ∀ c ∈ y ++ '-' :: (m ++ '-' :: d), jsIsSpace c = false := by
  intro c hc
  simp only [List.mem_append, List.mem_cons] at hc
  simp only [List.all_eq_true] at hyd hmd hdd
  rcases hc with hc | hc | hc | hc | hc
  · exact isDigit_nonspace c (hyd c hc)
  · rw [hc]
    decide
  · exact isDigit_nonspace c (hmd c hc)
  · rw [hc]
    decide
  · exact isDigit_nonspace c (hdd c hc)

/-- Normalizing a string already in canonical `YYYY-MM-DD` form returns it
unchanged: the slash and eight-digit shapes fail, the dash shape re-matches,
and the two-digit groups need no padding. -/
theorem normalizeBirthday_canonical (y m d : Str) (hy4 : y.length = 4)
    (hyd : y.all Char.isDigit = true) (hm2 : m.length = 2)
    (hmd : m.all Char.isDigit = true) (hd2 : d.length = 2)
    (hdd : d.all Char.isDigit = true) :
    normalizeBirthday (y ++ '-' :: (m ++ '-' :: d)) = y ++ '-' :: (m ++ '-' :: d) := by
  have hslash := matchSlashDate_of_dash y (m ++ '-' :: d) hyd
  have height : matchEightDigitDate (y ++ '-' :: (m ++ '-' :: d)) = none := by
    apply matchEightDigitDate_of_length
    simp only [List.length_append, List.length_cons]
    omega
  have hdash := matchDashDate_build y m d hy4 hyd hm2 hmd hd2 hdd
  simp only [normalizeBirthday, hslash, height, hdash]
  rw [pad2Str_eq_self m hm2, pad2Str_eq_self d hd2]
  simp [List.append_assoc]

/-- C9: normalization is idempotent for Postcode, Phone, and Birthday —
re-normalizing an already-normalized value returns it unchanged. -/
theorem c9_idempotence (h : Str) (hf : h = hPostcode ∨ h = hPhone ∨ h = hBirthday)
    (v : Str) :
    normalizeFieldValue h (some (normalizeFieldValue h (some v)))
      = normalizeFieldValue h (some v) := by
  rcases hf with hf | hf | hf
  · subst hf
    have hred : ∀ w, normalizeFieldValue hPostcode (some w) = normalizePostcode (jsTrim w) :=
      fun _ => rfl
    rw [hred v, hred (normalizePostcode (jsTrim v))]
    generalize jsTrim v = w
    have hns : ∀ c ∈ normalizePostcode w, jsIsSpace c = false := by
      intro c hc
      unfold normalizePostcode at hc
      obtain ⟨c', hc', hcc⟩ := List.mem_map.mp hc
      have h2 : jsIsSpace c' = false := by
        have h3 := (List.mem_filter.mp hc').2
        simpa using h3
      rw [← hcc]
      exact jsToUpperChar_nonspace c' h2
    rw [jsTrim_eq_self _ hns]
    have hfil : (normalizePostcode w).filter (fun c => !(jsIsSpace c)) = normalizePostcode w :=
      List.filter_eq_self.mpr (fun a ha => by simp [hns a ha])
    have hcomp : jsToUpperChar ∘ jsToUpperChar = jsToUpperChar := funext jsToUpperChar_idem
    calc normalizePostcode (normalizePostcode w)
        = ((normalizePostcode w).filter (fun c => !(jsIsSpace c))).map jsToUpperChar := rfl
      _ = (normalizePostcode w).map jsToUpperChar := by rw [hfil]
      _ = ((w.filter (fun c => !(jsIsSpace c))).map jsToUpperChar).map jsToUpperChar := rfl
      _ = (w.filter (fun c => !(jsIsSpace c))).map (jsToUpperChar ∘ jsToUpperChar) := by
            rw [List.map_map]
      _ = normalizePostcode w := by
            rw [hcomp]
            rfl
  · subst hf
    have hred : ∀ w, normalizeFieldValue hPhone (some w) = normalizePhone (jsTrim w) :=
      fun _ => rfl
    rw [hred v, hred (normalizePhone (jsTrim v))]
    generalize jsTrim v = w
    cases w with
    | nil => rfl
    | cons c rest =>
      by_cases hc : c = '+'
      · subst hc
        have hns : ∀ ch ∈ '+' :: rest.filter Char.isDigit, jsIsSpace ch = false := by
          intro ch hch
          rcases List.mem_cons.mp hch with hch | hch
          · rw [hch]
            decide
          · exact isDigit_nonspace ch (List.mem_filter.mp hch).2
        show normalizePhone (jsTrim ('+' :: rest.filter Char.isDigit))
          = '+' :: rest.filter Char.isDigit
        rw [jsTrim_eq_self _ hns]
        show '+' :: (rest.filter Char.isDigit).filter Char.isDigit
          = '+' :: rest.filter Char.isDigit
        rw [List.filter_eq_self.mpr (fun a ha => (List.mem_filter.mp ha).2)]
      · have hout : normalizePhone (c :: rest) = (c :: rest).filter Char.isDigit := by
          unfold normalizePhone
          split
          · rename_i r heq
            injection heq with h1 _
            exact absurd h1 hc
          · rfl
        rw [hout]
        have hns : ∀ ch ∈ (c :: rest).filter Char.isDigit, jsIsSpace ch = false :=
          fun ch hch => isDigit_nonspace ch (List.mem_filter.mp hch).2
        rw [jsTrim_eq_self _ hns]
        cases hfil : (c :: rest).filter Char.isDigit with
        | nil => rfl
        | cons a as =>
          have hadig : ∀ x ∈ a :: as, x.isDigit = true := by
            intro x hx
            have hx2 : x ∈ (c :: rest).filter Char.isDigit := by
              rw [hfil]
              exact hx
            exact (List.mem_filter.mp hx2).2
          have hout2 : normalizePhone (a :: as) = (a :: as).filter Char.isDigit := by
            unfold normalizePhone
            split
            · rename_i r heq
              injection heq with h1 _
              have ha := hadig a (List.mem_cons_self a as)
              rw [h1] at ha
              exact absurd ha (by decide)
            · rfl
          rw [hout2, List.filter_eq_self.mpr hadig]
  · subst hf
    have hred : ∀ w, normalizeFieldValue hBirthday (some w) = normalizeBirthday (jsTrim w) :=
      fun _ => rfl
    rw [hred v, hred (normalizeBirthday (jsTrim v))]
    cases hslash : matchSlashDate (jsTrim v) with
    | some trip =>
      obtain ⟨dd, mm, yy⟩ := trip
      obtain ⟨f1, f2, f3, f4, f5, f6, f7, f8⟩ := matchSlashDate_facts _ _ _ _ hslash
      have hout : normalizeBirthday (jsTrim v)
          = yy ++ '-' :: (pad2Str mm ++ '-' :: pad2Str dd) := by
        simp only [normalizeBirthday, hslash]
        simp [List.append_assoc]
      rw [hout]
      rw [jsTrim_eq_self _ (canonical_no_space yy (pad2Str mm) (pad2Str dd)
        f8 (pad2Str_all mm f6) (pad2Str_all dd f3))]
      exact normalizeBirthday_canonical yy (pad2Str mm) (pad2Str dd) f7 f8
        (pad2Str_length mm f4 f5) (pad2Str_all mm f6)
        (pad2Str_length dd f1 f2) (pad2Str_all dd f3)
    | none =>
      cases height : matchEightDigitDate (jsTrim v) with
      | some trip =>
        obtain ⟨yy, mm, dd⟩ := trip
        obtain ⟨g1, g2, g3, g4, g5, g6⟩ := matchEightDigitDate_facts _ _ _ _ height
        have hout : normalizeBirthday (jsTrim v) = yy ++ '-' :: (mm ++ '-' :: dd) := by
          simp only [normalizeBirthday, hslash, height]
          simp [List.append_assoc]
        rw [hout]
        rw [jsTrim_eq_self _ (canonical_no_space yy mm dd g4 g5 g6)]
        exact normalizeBirthday_canonical yy mm dd g1 g4 g2 g5 g3 g6
      | none =>
        cases hdash : matchDashDate (jsTrim v) with
        | some trip =>
          obtain ⟨yy, mm, dd⟩ := trip
          obtain ⟨k1, k2, k3, k4, k5, k6, k7, k8⟩ := matchDashDate_facts _ _ _ _ hdash
          have hout : normalizeBirthday (jsTrim v)
              = yy ++ '-' :: (pad2Str mm ++ '-' :: pad2Str dd) := by
            simp only [normalizeBirthday, hslash, height, hdash]
            simp [List.append_assoc]
          rw [hout]
          rw [jsTrim_eq_self _ (canonical_no_space yy (pad2Str mm) (pad2Str dd)
            k2 (pad2Str_all mm k5) (pad2Str_all dd k8))]
          exact normalizeBirthday_canonical yy (pad2Str mm) (pad2Str dd) k1 k2
            (pad2Str_length mm k3 k4) (pad2Str_all mm k5)
            (pad2Str_length dd k6 k7) (pad2Str_all dd k8)
        | none =>
          have hout : normalizeBirthday (jsTrim v) = jsTrim v := by
            simp [normalizeBirthday, hslash, height, hdash]
          rw [hout, jsTrim_idem]
          exact hout

/-- C9 witness: a postcode with an embedded space round-trips unchanged
through a second normalization. -/
theorem c9_idempotence_witness :
    normalizeFieldValue hPostcode (some (normalizeFieldValue hPostcode (some "4532 AA".data)))
      = normalizeFieldValue hPostcode (some "4532 AA".data) :=
  c9_idempotence hPostcode (Or.inl rfl) "4532 AA".data

/-- Splitting never yields an empty segment list. -/
theorem splitNl_ne_nil : ∀ s : Str, splitNl s ≠ []
  | [] => by simp [splitNl]
  | c :: cs => by
    simp only [splitNl]
    split
    · simp
    · cases hcs : splitNl cs with
      | nil => exact absurd hcs (splitNl_ne_nil cs)
      | cons a t => simp [hcs]

/-- A newline-free string is a single segment. -/
theorem splitNl_noNl : ∀ s : Str, '\n' ∉ s → splitNl s = [s]
  | [], _ => rfl
  | c :: cs, h => by
    have hc : ¬(c = '\n') := fun he => h (he ▸ List.mem_cons_self c cs)
    have hcs : '\n' ∉ cs := fun hm => h (List.mem_cons_of_mem c hm)
    simp only [splitNl, if_neg hc, splitNl_noNl cs hcs, List.modifyHead]

/-- The default of `getLastD` is irrelevant for a non-empty list. -/
theorem getLastD_indep (l : List Str) (hne : l ≠ []) (d1 d2 : Str) :
    l.getLastD d1 = l.getLastD d2 := by
  cases l with
  | nil => exact absurd rfl hne
  | cons a t => simp only [List.getLastD_cons]

/-- Splitting after a linefeed head. -/
theorem splitNl_cons_nl (cs : Str) : splitNl ('\n' :: cs) = [] :: splitNl cs := by
  simp [splitNl]

/-- Splitting after a non-linefeed head extends the first segment. -/
theorem splitNl_cons_of_ne (c : Char) (cs : Str) (h : ¬c = '\n') :
    splitNl (c :: cs) = (splitNl cs).modifyHead (c :: ·) := by
  simp [splitNl, h]

/-- Dropping the last element from a two-or-more element list keeps the
head. -/
theorem dropLast_cons_cons (x y : Str) (l : List Str) :
    (x :: y :: l).dropLast = x :: (y :: l).dropLast := rfl

/-- The last of a two-or-more element list ignores the head. -/
theorem getLastD_cons_cons (x y : Str) (l : List Str) :
    (x :: y :: l).getLastD [] = (y :: l).getLastD [] := by
  simp only [List.getLastD_cons]

/-- The last of a singleton. -/
theorem getLastD_single (x : Str) : ([x] : List Str).getLastD [] = x := by
  simp only [List.getLastD_cons]
  rfl

/-- The retained buffer segment — the last split segment — never holds a
newline. -/
theorem nl_not_mem_getLastD : ∀ s : Str, '\n' ∉ (splitNl s).getLastD []
  | [] => by simp [splitNl]
  | c :: cs => by
    by_cases hc : c = '\n'
    · subst hc
      rw [splitNl_cons_nl]
      cases hcs : splitNl cs with
      | nil => exact absurd hcs (splitNl_ne_nil cs)
      | cons h0 t =>
        have hih := nl_not_mem_getLastD cs
        rw [hcs] at hih
        rw [getLastD_cons_cons]
        exact hih
    · rw [splitNl_cons_of_ne c cs hc]
      cases hcs : splitNl cs with
      | nil => exact absurd hcs (splitNl_ne_nil cs)
      | cons h0 t =>
        rw [List.modifyHead_cons]
        have hih := nl_not_mem_getLastD cs
        rw [hcs] at hih
        cases t with
        | nil =>
          rw [getLastD_single] at hih ⊢
          intro hmem
          rcases List.mem_cons.mp hmem with he | hm
          · exact hc he.symm
          · exact hih hm
        | cons t0 ts =>
          rw [getLastD_cons_cons] at hih ⊢
          exact hih

/-- Splitting distributes over append: the complete segments of the first
part, then the split of its trailing segment glued to the second part. -/
theorem splitNl_append : ∀ a b : Str,
    splitNl (a ++ b) = (splitNl a).dropLast ++ splitNl ((splitNl a).getLastD [] ++ b)
  | [], b => by
    simp only [List.nil_append]
    rw [show splitNl ([] : Str) = [[]] from rfl]
    rw [List.dropLast_single, getLastD_single, List.nil_append, List.nil_append]
  | c :: cs, b => by
    have ih := splitNl_append cs b
    by_cases hc : c = '\n'
    · subst hc
      rw [List.cons_append, splitNl_cons_nl, splitNl_cons_nl]
      cases hcs : splitNl cs with
      | nil => exact absurd hcs (splitNl_ne_nil cs)
      | cons h0 t =>
        rw [hcs] at ih
        rw [ih, dropLast_cons_cons, getLastD_cons_cons]
        simp
    · rw [List.cons_append, splitNl_cons_of_ne c (cs ++ b) hc, splitNl_cons_of_ne c cs hc]
      cases hcs : splitNl cs with
      | nil => exact absurd hcs (splitNl_ne_nil cs)
      | cons h0 t =>
        rw [hcs] at ih
        rw [ih]
        cases t with
        | nil =>
          simp only [List.modifyHead_cons, List.dropLast_single, getLastD_single,
            List.nil_append]
          rw [show (c :: h0) ++ b = c :: (h0 ++ b) from rfl,
            splitNl_cons_of_ne c (h0 ++ b) hc]
        | cons t0 ts =>
          simp only [List.modifyHead_cons, dropLast_cons_cons, getLastD_cons_cons,
            List.cons_append]

/-- Re-joining the split segments restores the original string: the split is
lossless. -/
theorem unsplitNl_splitNl : ∀ s : Str, unsplitNl (splitNl s) = s
  | [] => rfl
  | c :: cs => by
    have ih := unsplitNl_splitNl cs
    by_cases hc : c = '\n'
    · subst hc
      rw [splitNl_cons_nl]
      cases hcs : splitNl cs with
      | nil => exact absurd hcs (splitNl_ne_nil cs)
      | cons h0 t =>
        rw [hcs] at ih
        show ([] : Str) ++ '\n' :: unsplitNl (h0 :: t) = '\n' :: cs
        rw [List.nil_append, ih]
    · rw [splitNl_cons_of_ne c cs hc]
      cases hcs : splitNl cs with
      | nil => exact absurd hcs (splitNl_ne_nil cs)
      | cons h0 t =>
        rw [hcs] at ih
        rw [List.modifyHead_cons]
        cases t with
        | nil =>
          show c :: h0 = c :: cs
          rw [show unsplitNl [h0] = h0 from rfl] at ih
          rw [ih]
        | cons t0 ts =>
          show (c :: h0) ++ '\n' :: unsplitNl (t0 :: ts) = c :: cs
          rw [show unsplitNl (h0 :: t0 :: ts) = h0 ++ '\n' :: unsplitNl (t0 :: ts) from rfl] at ih
          rw [List.cons_append, ih]

/-- The trailing empty-or-partial structure of the two `linesOfString` sides
agree: running the transform over chunks from a newline-free buffer yields
exactly the lines of the concatenation. -/
theorem prnRunChunks_eq (chunks : List Str) : ∀ buffer : Str, '\n' ∉ buffer →
    prnRunChunks buffer chunks = linesOfString (buffer ++ chunks.flatten) := by
  induction chunks with
  | nil =>
    intro buffer hb
    simp only [prnRunChunks, List.flatten_nil, List.append_nil]
    unfold linesOfString
    rw [splitNl_noNl buffer hb]
    by_cases hbe : buffer = []
    · subst hbe
      rw [if_pos (by rw [getLastD_single])]
      rfl
    · rw [if_neg (by rw [getLastD_single]; exact hbe)]
      unfold prnFlush
      rw [if_neg hbe]
  | cons c cs ih =>
    intro buffer hb
    simp only [prnRunChunks, prnTransformStep]
    rw [ih ((splitNl (buffer ++ c)).getLastD []) (nl_not_mem_getLastD (buffer ++ c))]
    have hassoc : buffer ++ (c :: cs).flatten = (buffer ++ c) ++ cs.flatten := by
      rw [List.flatten_cons, ← List.append_assoc]
    rw [hassoc]
    unfold linesOfString
    rw [splitNl_append (buffer ++ c) cs.flatten]
    have hQne : splitNl ((splitNl (buffer ++ c)).getLastD [] ++ cs.flatten) ≠ [] :=
      splitNl_ne_nil _
    have e1g : ∀ (xs ys : List Str), ys ≠ [] → (xs ++ ys).getLastD ([] : Str) = ys.getLastD [] := by
      intro xs ys hys
      simp only [List.getLastD_eq_getLast?]
      rw [List.getLast?_append_of_ne_nil _ hys]
    rw [e1g _ _ hQne, List.dropLast_append_of_ne_nil _ hQne]
    by_cases hq : (splitNl ((splitNl (buffer ++ c)).getLastD [] ++ cs.flatten)).getLastD [] = []
    · rw [if_pos hq, if_pos hq]
    · rw [if_neg hq, if_neg hq]

/-- C2: the fixed-width parser's chunk reassembly is lossless and
partition-independent — over any chunking it hands downstream exactly the
linefeed-split lines of the full concatenation (the trailing segment emitted
at flush only if non-empty), two chunkings of the same byte string emit the
same lines, and gluing the split segments back with linefeeds restores the
input. -/
theorem c2_line_reassembly (chunks chunks2 : List Str)
    (hjoin : chunks.flatten = chunks2.flatten) :
    emittedLines chunks = linesOfString chunks.flatten ∧
    emittedLines chunks = emittedLines chunks2 ∧
    unsplitNl (splitNl chunks.flatten) = chunks.flatten := by
  have h1 : emittedLines chunks = linesOfString chunks.flatten := by
    have h := prnRunChunks_eq chunks [] (by simp)
    simpa [emittedLines] using h
  have h2 : emittedLines chunks2 = linesOfString chunks2.flatten := by
    have h := prnRunChunks_eq chunks2 [] (by simp)
    simpa [emittedLines] using h
  refine ⟨h1, ?_, unsplitNl_splitNl _⟩
  rw [h1, h2, hjoin]

/-- C2 witness: a three-chunk partition with a split mid-line and a split at
a line boundary emits the same lines as the unchunked input. -/
theorem c2_line_reassembly_witness :
    emittedLines ["ab\nc".data, "d\n".data, "e".data]
      = linesOfString ("ab\nc".data ++ "d\n".data ++ "e".data) ∧
    emittedLines ["ab\nc".data, "d\n".data, "e".data] = emittedLines ["ab\ncd\ne".data] ∧
    unsplitNl (splitNl (["ab\nc".data, "d\n".data, "e".data] : List Str).flatten)
      = (["ab\nc".data, "d\n".data, "e".data] : List Str).flatten := by
  have h := c2_line_reassembly ["ab\nc".data, "d\n".data, "e".data] ["ab\ncd\ne".data]
    (by decide)
  refine ⟨?_, h.2.1, h.2.2⟩
  have h1 := h.1
  rw [h1]
  decide
